import Mathlib

/-!
A verification development for the OSC packet encoder (`src/encoder.rs` of
the `rosc` crate).

Modelling conventions:
* Byte sequences (`&[u8]`, `Vec<u8>`, UTF-8 contents of `String`) are
  `List Nat`, each element standing for one byte.
* `usize`/`u64` length arithmetic inside the encoder is modelled on `Nat`
  without a wrap-around: every such quantity is the length of a byte
  sequence held in memory, which Rust bounds by `isize::MAX < 2^63`, so the
  additions involved can never overflow in an actual execution.  The one
  place where the full machine-word range is part of a claimed contract —
  `pad`, whose argument is an arbitrary `u64` — is additionally modelled
  with the wrap made explicit (`pad64` below).
* The `u32` casts `msg_len as u32`, `bundle_len as u32` and `x.len() as u32`
  truncate modulo `2^32`; the big-endian serialisation `u32be` performs that
  truncation exactly as `to_be_bytes` does on the cast value.
* `f32`/`f64` arguments are carried as their IEEE-754 bit patterns
  (a `Nat` below `2^32` resp. `2^64`); `to_be_bytes` on a float is the
  big-endian serialisation of exactly that bit pattern.
* Fallible signatures `Result<_, O::Err>`: both sink implementations under
  verification (`Vec<u8>` and `NullOutput`) fix `Err = Infallible`, which
  has no inhabitants, so the encoder specialised to them is the total
  function modelled here; the state of the sink is threaded explicitly.
-/

/-- Modelled from the spec: the crate's `OscTime` (src/types.rs is not part
of the sources provided), §3: `{ seconds: unsigned 32-bit, fractional:
unsigned 32-bit }`. -/
structure OscTime where
  seconds : Nat
  fractional : Nat
deriving Repr, DecidableEq

/-- Modelled from the spec: the crate's `OscMidiMessage` (src/types.rs is
not provided), §3/§4.4: `Midi{port,status,data1,data2: byte each}`. -/
structure OscMidiMessage where
  port : Nat
  status : Nat
  data1 : Nat
  data2 : Nat
deriving Repr, DecidableEq

/-- Modelled from the spec: the crate's `OscColor` (src/types.rs is not
provided), §3/§4.4: `Color{red,green,blue,alpha: byte each}`. -/
structure OscColor where
  red : Nat
  green : Nat
  blue : Nat
  alpha : Nat
deriving Repr, DecidableEq

/-- Byte list, the model of `Vec<u8>` / `&[u8]` / UTF-8 string contents. -/
abbrev Bytes := List Nat

/-- Modelled from the spec: the crate's `OscType` argument variants
(src/types.rs is not provided), §3.  Numeric variants carry the value (for
the two's-complement integers) or the IEEE-754 bit pattern (for the
floats); `Char` carries the Unicode scalar value, exactly the `u32` the
encoder produces with `x as u32`. -/
inductive OscType where
  | Int (x : Int)
  | Long (x : Int)
  | Float (bits : Nat)
  | Double (bits : Nat)
  | Char (scalar : Nat)
  | String (s : Bytes)
  | Blob (b : Bytes)
  | Time (t : OscTime)
  | Midi (m : OscMidiMessage)
  | Color (c : OscColor)
  | Bool (b : Bool)
  | Nil
  | Inf
  | Array (content : List OscType)
deriving Repr

/-- Modelled from the spec: the crate's `OscMessage` (src/types.rs is not
provided), §3: `{ address: text, arguments: ordered sequence }`. -/
structure OscMessage where
  addr : Bytes
  args : List OscType
deriving Repr

/-- Modelled from the spec: the crate's `OscPacket` (src/types.rs is not
provided), §3.  The `Bundle` variant inlines the fields of the crate's
`OscBundle` struct (`timetag`, `content`), since a separately declared
structure cannot take part in the recursion in Lean. -/
inductive OscPacket where
  | Message (msg : OscMessage)
  | Bundle (timetag : OscTime) (content : List OscPacket)
deriving Repr

/-- Modelled from the spec: the crate's `OscError` (src/types.rs is not
provided).  §7 only needs it to exist as the error half of
`crate::types::Result`; no structure of it is relied on. -/
inductive OscError where
  | Unspecified
deriving Repr, DecidableEq

/-! ## Byte-level helpers -/

/-- `u32::to_be_bytes` on the `u32` obtained by truncating a `Nat` modulo
`2^32` — exactly what the source's `(x as u32).to_be_bytes()` /
`seconds.to_be_bytes()` produce. -/
def u32be (x : Nat) : Bytes :=
  [x / 2 ^ 24 % 256, x / 2 ^ 16 % 256, x / 2 ^ 8 % 256, x % 256]

/-- `u64::to_be_bytes` on a `Nat` truncated modulo `2^64`; used for the
8-byte variants (`i64`, `f64` bit patterns). -/
def u64be (x : Nat) : Bytes :=
  [x / 2 ^ 56 % 256, x / 2 ^ 48 % 256, x / 2 ^ 40 % 256, x / 2 ^ 32 % 256,
   x / 2 ^ 24 % 256, x / 2 ^ 16 % 256, x / 2 ^ 8 % 256, x % 256]

/-- The numeric value of a big-endian byte sequence (the value a decoder
reads back from a length field). -/
def beVal (l : Bytes) : Nat :=
  l.foldl (fun acc b => acc * 256 + b) 0

/-- The two's-complement `u32` image of an `i32` value, as produced by
`i32::to_be_bytes`. -/
def i32bits (x : Int) : Nat := (x % (2 ^ 32 : Int)).toNat

/-- The two's-complement `u64` image of an `i64` value, as produced by
`i64::to_be_bytes`. -/
def i64bits (x : Int) : Nat := (x % (2 ^ 64 : Int)).toNat

/-- src/encoder.rs 209-214, `pub fn pad(pos: u64) -> u64`, idealized over
`Nat`: the addition `pos + (4 - d)` is taken without the `u64` wrap.  This
coincides with the machine computation whenever `pos + 3 < 2^64`, which
holds at every call the encoder makes (each `pos` there is the length of a
byte sequence held in memory, bounded by `isize::MAX`).  The variant with
the wrap made explicit is `pad64` below. -/
def pad (pos : Nat) : Nat :=
  match pos % 4 with
  | 0 => pos
  | d => pos + (4 - d)

/-- src/encoder.rs 209-214 again, with the `u64` wrap of `pos + (4 - d)`
made explicit (`% 2^64`), for claims quantifying over the full `u64`
domain.  In a release build the addition wraps exactly like this; in a
debug build it panics instead of wrapping, which is likewise a departure
from a total "round up to a multiple of 4". -/
def pad64 (pos : Nat) : Nat :=
  match pos % 4 with
  | 0 => pos
  | d => (pos + (4 - d)) % 2 ^ 64

/-- `Vec::resize(new_len, 0)` on a byte vector. -/
def listResize (l : Bytes) (n : Nat) : Bytes :=
  if n ≤ l.length then l.take n else l ++ List.replicate (n - l.length) 0

/-- src/encoder.rs 175-182, `pub fn encode_string<S: Into<String>>`:
NUL-terminate and zero-pad to a multiple of 4 via `resize`. -/
def encode_string (s : Bytes) : Bytes :=
  listResize s (pad (s.length + 1))

/-! ## The output-sink abstraction

src/encoder.rs 246-281, `pub trait Output`.  Both implementations under
verification (`Vec<u8>`, `NullOutput`) fix `Err = Infallible`, so the
fallible signatures degenerate to total functions; the sink state `σ` is
threaded explicitly, and `Placeholder` is `π`. -/
structure Output (σ π : Type) where
  allocate : σ → Nat → σ × π
  rewrite : σ → π → Bytes → σ
  write : σ → Bytes → σ × Nat
  reserve : σ → Nat → σ := fun st _ => st

/-- src/encoder.rs 304-330, `impl Output for Vec<u8>`: `write` appends and
returns the data length; `allocate` extends by `size` zero bytes and
returns the occupied index range; `rewrite (start, end)` copies the data
over that range (`copy_from_slice`); `reserve` only affects capacity. -/
def VecOutput : Output Bytes (Nat × Nat) where
  allocate st size := (st ++ List.replicate size 0, (st.length, st.length + size))
  rewrite st mark data := st.take mark.1 ++ data ++ st.drop mark.2
  write st data := (st ++ data, data.length)
  reserve st _ := st

/-- src/encoder.rs 337-358, `pub struct NullOutput` and its `Output`
implementation: stateless, `write` just reports the data length. -/
def NullOutput : Output Unit Unit where
  allocate st _ := (st, ())
  rewrite st _ _ := st
  write st data := (st, data.length)
  reserve st _ := st

/-! ## The encoder, src/encoder.rs 24-142 and 187-220 -/

/-- src/encoder.rs 187-197, `pub fn encode_string_into`. -/
def encode_string_into {σ π : Type} (O : Output σ π) (s : Bytes) (st : σ) :
    σ × Nat :=
  let padded_len := pad (s.length + 1)
  let st := O.reserve st padded_len
  let padding := padded_len - s.length
  let st := (O.write st s).1
  let st := (O.write st (List.replicate padding 0)).1
  (st, s.length + padding)

/-- src/encoder.rs 216-220, `fn encode_time_tag_into`. -/
def encode_time_tag_into {σ π : Type} (O : Output σ π) (t : OscTime)
    (st : σ) : σ × Nat :=
  let st := (O.write st (u32be t.seconds)).1
  let st := (O.write st (u32be t.fractional)).1
  (st, 8)

mutual

/-- src/encoder.rs 144-170, `fn encode_arg_type`.  Tag characters by ASCII
code: 105 'i', 104 'h', 102 'f', 100 'd', 99 'c', 115 's', 98 'b',
116 't', 109 'm', 114 'r', 84 'T', 70 'F', 78 'N', 73 'I', 91 '[',
93 ']'. -/
def encode_arg_type {σ π : Type} (O : Output σ π) : OscType → σ → σ × Nat
  | .Int _, st => O.write st [105]
  | .Long _, st => O.write st [104]
  | .Float _, st => O.write st [102]
  | .Double _, st => O.write st [100]
  | .Char _, st => O.write st [99]
  | .String _, st => O.write st [115]
  | .Blob _, st => O.write st [98]
  | .Time _, st => O.write st [116]
  | .Midi _, st => O.write st [109]
  | .Color _, st => O.write st [114]
  | .Bool x, st => O.write st (if x then [84] else [70])
  | .Nil, st => O.write st [78]
  | .Inf, st => O.write st [73]
  | .Array content, st =>
    let r1 := O.write st [91]
    let r2 := encode_arg_type_loop O content r1.1
    let r3 := O.write r2.1 [93]
    (r3.1, r1.2 + r2.2 + r3.2)

/-- The `for v in &x.content { written += encode_arg_type(v, out)?; }` loop
of the `Array` arm (src/encoder.rs 159-168), unrolled as list recursion. -/
def encode_arg_type_loop {σ π : Type} (O : Output σ π) :
    List OscType → σ → σ × Nat
  | [], st => (st, 0)
  | v :: rest, st =>
    let r1 := encode_arg_type O v st
    let r2 := encode_arg_type_loop O rest r1.1
    (r2.1, r1.2 + r2.2)

end

mutual

/-- src/encoder.rs 106-142, `fn encode_arg_data`. -/
def encode_arg_data {σ π : Type} (O : Output σ π) : OscType → σ → σ × Nat
  | .Int x, st => O.write st (u32be (i32bits x))
  | .Long x, st => O.write st (u64be (i64bits x))
  | .Float bits, st => O.write st (u32be bits)
  | .Double bits, st => O.write st (u64be bits)
  | .Char scalar, st => O.write st (u32be scalar)
  | .String s, st => encode_string_into O s st
  | .Blob b, st =>
    let padded_blob_length := pad b.length
    let padding := padded_blob_length - b.length
    let st := O.reserve st (4 + padded_blob_length)
    let st := (O.write st (u32be b.length)).1
    let st := (O.write st b).1
    let st := if 0 < padding then (O.write st (List.replicate padding 0)).1
              else st
    (st, 4 + padded_blob_length)
  | .Time t, st => encode_time_tag_into O t st
  | .Midi m, st => O.write st [m.port, m.status, m.data1, m.data2]
  | .Color c, st => O.write st [c.red, c.green, c.blue, c.alpha]
  | .Bool _, st => (st, 0)
  | .Nil, st => (st, 0)
  | .Inf, st => (st, 0)
  | .Array content, st => encode_arg_data_loop O content st

/-- The `for v in &x.content { written += encode_arg_data(v, out)?; }` loop
of the `Array` arm (src/encoder.rs 134-140), unrolled as list recursion. -/
def encode_arg_data_loop {σ π : Type} (O : Output σ π) :
    List OscType → σ → σ × Nat
  | [], st => (st, 0)
  | v :: rest, st =>
    let r1 := encode_arg_data O v st
    let r2 := encode_arg_data_loop O rest r1.1
    (r2.1, r1.2 + r2.2)

end

/-- src/encoder.rs 58-74, `fn encode_message`: address, then `","` and the
argument tags, then the tag-string padding computed from the running
`written` count, then the argument data. -/
def encode_message {σ π : Type} (O : Output σ π) (msg : OscMessage)
    (st : σ) : σ × Nat :=
  let r0 := encode_string_into O msg.addr st
  let r1 := O.write r0.1 [44]
  let r2 := encode_arg_type_loop O msg.args r1.1
  let written := r0.2 + r1.2 + r2.2
  let padding := pad (written + 1) - written
  let r3 := O.write r2.1 (List.replicate padding 0)
  let r4 := encode_arg_data_loop O msg.args r3.1
  (r4.1, written + r3.2 + r4.2)

/-- The ASCII bytes of the literal `"#bundle"`. -/
def bundleLit : Bytes := [35, 98, 117, 110, 100, 108, 101]

mutual

/-- src/encoder.rs 76-104, `fn encode_bundle`: the `"#bundle"` header, the
time tag, then the length-prefixed content elements. -/
def encode_bundle {σ π : Type} (O : Output σ π) (timetag : OscTime)
    (content : List OscPacket) (st : σ) : σ × Nat :=
  let r0 := encode_string_into O bundleLit st
  let r1 := encode_time_tag_into O timetag r0.1
  encode_bundle_loop O content r1.1 (r0.2 + r1.2)

/-- The `for packet in &bundle.content` loop (src/encoder.rs 80-101),
unrolled as list recursion with the running `written` count as
accumulator: `allocate(4)`, encode the element, `rewrite` the reserved
4 bytes with `(len as u32).to_be_bytes()`. -/
def encode_bundle_loop {σ π : Type} (O : Output σ π) :
    List OscPacket → σ → Nat → σ × Nat
  | [], st, written => (st, written)
  | p :: rest, st, written =>
    match p with
    | .Message m =>
      let r0 := O.allocate st 4
      let r1 := encode_message O m r0.1
      let st := O.rewrite r1.1 r0.2 (u32be r1.2)
      encode_bundle_loop O rest st (written + 4 + r1.2)
    | .Bundle tt c =>
      let r0 := O.allocate st 4
      let r1 := encode_bundle O tt c r0.1
      let st := O.rewrite r1.1 r0.2 (u32be r1.2)
      encode_bundle_loop O rest st (written + 4 + r1.2)

end

/-- src/encoder.rs 51-56, `pub fn encode_into`: dispatch on the packet
kind. -/
def encode_into {σ π : Type} (O : Output σ π) (packet : OscPacket)
    (st : σ) : σ × Nat :=
  match packet with
  | .Message msg => encode_message O msg st
  | .Bundle timetag content => encode_bundle O timetag content st

/-- src/encoder.rs 24-28, `pub fn encode`: allocate a fresh `Vec<u8>`,
encode into it, and return it wrapped in `Ok` unconditionally. -/
def encode (packet : OscPacket) : Except OscError Bytes :=
  let bytes : Bytes := []
  let r := encode_into VecOutput packet bytes
  Except.ok r.1

/-! ## Spec-level byte layouts (§4.2, §4.4, §4.5, §4.6)

Pure descriptions of the produced bytes, used to state what the sink-driven
encoder emits. -/

/-- §4.2: text bytes followed by `pad(len+1) - len` NUL bytes. -/
def strEnc (s : Bytes) : Bytes :=
  s ++ List.replicate (pad (s.length + 1) - s.length) 0

/-- §4.4 `t` / §4.6: seconds then fractional, each 4 bytes big-endian. -/
def timeTagBytes (t : OscTime) : Bytes :=
  u32be t.seconds ++ u32be t.fractional

mutual

/-- §4.4: the type-tag characters of one argument (brackets around array
content). -/
def tagBytes : OscType → Bytes
  | .Int _ => [105]
  | .Long _ => [104]
  | .Float _ => [102]
  | .Double _ => [100]
  | .Char _ => [99]
  | .String _ => [115]
  | .Blob _ => [98]
  | .Time _ => [116]
  | .Midi _ => [109]
  | .Color _ => [114]
  | .Bool x => if x then [84] else [70]
  | .Nil => [78]
  | .Inf => [73]
  | .Array content => [91] ++ tagBytesList content ++ [93]

/-- Tag characters of a sequence of arguments, in order. -/
def tagBytesList : List OscType → Bytes
  | [] => []
  | v :: rest => tagBytes v ++ tagBytesList rest

end

mutual

/-- §4.4: the data block of one argument. -/
def dataBytes : OscType → Bytes
  | .Int x => u32be (i32bits x)
  | .Long x => u64be (i64bits x)
  | .Float bits => u32be bits
  | .Double bits => u64be bits
  | .Char scalar => u32be scalar
  | .String s => strEnc s
  | .Blob b => u32be b.length ++ b ++ List.replicate (pad b.length - b.length) 0
  | .Time t => timeTagBytes t
  | .Midi m => [m.port, m.status, m.data1, m.data2]
  | .Color c => [c.red, c.green, c.blue, c.alpha]
  | .Bool _ => []
  | .Nil => []
  | .Inf => []
  | .Array content => dataBytesList content

/-- Data blocks of a sequence of arguments, concatenated in order. -/
def dataBytesList : List OscType → Bytes
  | [] => []
  | v :: rest => dataBytes v ++ dataBytesList rest

end

/-- §4.5: address, padded type-tag string (`','` = 44 leading), argument
data. -/
def msgBytes (m : OscMessage) : Bytes :=
  strEnc m.addr ++ strEnc (44 :: tagBytesList m.args) ++ dataBytesList m.args

mutual

/-- §4.5/§4.6: the full encoding of a packet. -/
def packetBytes : OscPacket → Bytes
  | .Message m => msgBytes m
  | .Bundle timetag content =>
    strEnc bundleLit ++ timeTagBytes timetag ++ framesBytes content

/-- §4.6: the length-prefixed frames of a bundle's content, in order. -/
def framesBytes : List OscPacket → Bytes
  | [] => []
  | p :: rest => u32be (packetBytes p).length ++ packetBytes p ++ framesBytes rest

end

/-! ## Arithmetic base lemmas -/

theorem pad_eq (n : Nat) : pad n = n + (4 - n % 4) % 4 := by
  have hlt : n % 4 < 4 := Nat.mod_lt _ (by norm_num)
  cases h : n % 4 with
  | zero =>
    unfold pad; rw [h]
    show n = n + (4 - 0) % 4
    norm_num
  | succ d =>
    unfold pad; rw [h]
    show n + (4 - (d + 1)) = n + (4 - (d + 1)) % 4
    omega

theorem pad64_eq (n : Nat) :
    pad64 n = if n % 4 = 0 then n else (n + (4 - n % 4)) % 2 ^ 64 := by
  cases h : n % 4 with
  | zero =>
    unfold pad64; rw [h]
    show n = if 0 = 0 then n else (n + (4 - 0)) % 2 ^ 64
    simp
  | succ d =>
    unfold pad64; rw [h]
    show (n + (4 - (d + 1))) % 2 ^ 64
      = if d + 1 = 0 then n else (n + (4 - (d + 1))) % 2 ^ 64
    simp

theorem le_pad (n : Nat) : n ≤ pad n := by rw [pad_eq]; omega

theorem pad_mod4 (n : Nat) : pad n % 4 = 0 := by rw [pad_eq]; omega

theorem pad_add_of_dvd (a x : Nat) (h : a % 4 = 0) :
    pad (a + x) = a + pad x := by
  rw [pad_eq, pad_eq]; omega

theorem pad_succ_lb (n : Nat) : n + 1 ≤ pad (n + 1) := le_pad _

theorem pad_succ_ub (n : Nat) : pad (n + 1) ≤ n + 4 := by rw [pad_eq]; omega

theorem pad_sub_le (n : Nat) : pad n - n ≤ 3 := by rw [pad_eq]; omega

theorem strEnc_length (s : Bytes) : (strEnc s).length = pad (s.length + 1) := by
  have h1 := pad_succ_lb s.length
  simp [strEnc]
  omega

theorem strEnc_mod4 (s : Bytes) : (strEnc s).length % 4 = 0 := by
  rw [strEnc_length]; exact pad_mod4 _

theorem length_u32be (x : Nat) : (u32be x).length = 4 := rfl

theorem length_u64be (x : Nat) : (u64be x).length = 8 := rfl

theorem length_timeTagBytes (t : OscTime) : (timeTagBytes t).length = 8 := rfl

theorem beVal_u32be (n : Nat) : beVal (u32be n) = n % 2 ^ 32 := by
  simp [beVal, u32be, List.foldl]
  omega

theorem encode_string_eq_strEnc (s : Bytes) : encode_string s = strEnc s := by
  have h1 := pad_succ_lb s.length
  simp only [encode_string, listResize, strEnc]
  rw [if_neg (by omega)]

/-! ## The growable-buffer sink appends the pure byte layout -/

theorem vec_write (st d : Bytes) :
    VecOutput.write st d = (st ++ d, d.length) := rfl

theorem vec_encode_string_into (s st : Bytes) :
    encode_string_into VecOutput s st = (st ++ strEnc s, (strEnc s).length) := by
  have h1 := pad_succ_lb s.length
  simp [encode_string_into, VecOutput, strEnc]

theorem vec_encode_time_tag_into (t : OscTime) (st : Bytes) :
    encode_time_tag_into VecOutput t st = (st ++ timeTagBytes t, 8) := by
  simp [encode_time_tag_into, VecOutput, timeTagBytes]

mutual

theorem vec_encode_arg_type (a : OscType) (st : Bytes) :
    encode_arg_type VecOutput a st = (st ++ tagBytes a, (tagBytes a).length) := by
  match a with
  | .Int _ => simp [encode_arg_type, tagBytes, VecOutput]
  | .Long _ => simp [encode_arg_type, tagBytes, VecOutput]
  | .Float _ => simp [encode_arg_type, tagBytes, VecOutput]
  | .Double _ => simp [encode_arg_type, tagBytes, VecOutput]
  | .Char _ => simp [encode_arg_type, tagBytes, VecOutput]
  | .String _ => simp [encode_arg_type, tagBytes, VecOutput]
  | .Blob _ => simp [encode_arg_type, tagBytes, VecOutput]
  | .Time _ => simp [encode_arg_type, tagBytes, VecOutput]
  | .Midi _ => simp [encode_arg_type, tagBytes, VecOutput]
  | .Color _ => simp [encode_arg_type, tagBytes, VecOutput]
  | .Bool x => cases x <;> simp [encode_arg_type, tagBytes, VecOutput]
  | .Nil => simp [encode_arg_type, tagBytes, VecOutput]
  | .Inf => simp [encode_arg_type, tagBytes, VecOutput]
  | .Array content =>
    simp only [encode_arg_type, tagBytes]
    rw [vec_encode_arg_type_loop content]
    simp [VecOutput, List.append_assoc]
    omega

theorem vec_encode_arg_type_loop (l : List OscType) (st : Bytes) :
    encode_arg_type_loop VecOutput l st
      = (st ++ tagBytesList l, (tagBytesList l).length) := by
  match l with
  | [] => simp [encode_arg_type_loop, tagBytesList]
  | v :: rest =>
    simp only [encode_arg_type_loop, tagBytesList]
    rw [vec_encode_arg_type v, vec_encode_arg_type_loop rest]
    simp [List.append_assoc]

end

mutual

theorem vec_encode_arg_data (a : OscType) (st : Bytes) :
    encode_arg_data VecOutput a st = (st ++ dataBytes a, (dataBytes a).length) := by
  match a with
  | .Int _ => simp [encode_arg_data, dataBytes, VecOutput]
  | .Long _ => simp [encode_arg_data, dataBytes, VecOutput]
  | .Float _ => simp [encode_arg_data, dataBytes, VecOutput]
  | .Double _ => simp [encode_arg_data, dataBytes, VecOutput]
  | .Char _ => simp [encode_arg_data, dataBytes, VecOutput]
  | .String s => simpa [encode_arg_data, dataBytes] using vec_encode_string_into s st
  | .Blob b =>
    have hle := le_pad b.length
    rcases Nat.eq_zero_or_pos (pad b.length - b.length) with h | h
    · simp [encode_arg_data, dataBytes, VecOutput, h,
        Nat.not_lt.mpr (Nat.le_of_eq h), length_u32be]
      omega
    · simp [encode_arg_data, dataBytes, VecOutput, h, List.append_assoc,
        length_u32be]
      omega
  | .Time t => simpa [encode_arg_data, dataBytes] using vec_encode_time_tag_into t st
  | .Midi _ => simp [encode_arg_data, dataBytes, VecOutput]
  | .Color _ => simp [encode_arg_data, dataBytes, VecOutput]
  | .Bool _ => simp [encode_arg_data, dataBytes]
  | .Nil => simp [encode_arg_data, dataBytes]
  | .Inf => simp [encode_arg_data, dataBytes]
  | .Array content =>
    simp only [encode_arg_data, dataBytes]
    exact vec_encode_arg_data_loop content st

theorem vec_encode_arg_data_loop (l : List OscType) (st : Bytes) :
    encode_arg_data_loop VecOutput l st
      = (st ++ dataBytesList l, (dataBytesList l).length) := by
  match l with
  | [] => simp [encode_arg_data_loop, dataBytesList]
  | v :: rest =>
    simp only [encode_arg_data_loop, dataBytesList]
    rw [vec_encode_arg_data v, vec_encode_arg_data_loop rest]
    simp [List.append_assoc]

end

theorem strEnc_comma (tags : Bytes) (A : Nat) (hA : A % 4 = 0) :
    strEnc (44 :: tags)
      = 44 :: (tags ++ List.replicate
          (pad (A + 1 + tags.length + 1) - (A + 1 + tags.length)) 0) := by
  have hpad : pad (A + 1 + tags.length + 1) = A + pad (tags.length + 2) := by
    rw [show A + 1 + tags.length + 1 = A + (tags.length + 2) by ring]
    exact pad_add_of_dvd _ _ hA
  have hT := le_pad (tags.length + 2)
  rw [hpad]
  simp only [strEnc, List.length_cons]
  have hc : pad (tags.length + 1 + 1) - (tags.length + 1)
      = A + pad (tags.length + 2) - (A + 1 + tags.length) := by
    rw [show tags.length + 1 + 1 = tags.length + 2 by omega]
    omega
  rw [hc]
  simp

theorem vec_encode_message (m : OscMessage) (st : Bytes) :
    encode_message VecOutput m st = (st ++ msgBytes m, (msgBytes m).length) := by
  have hA : (strEnc m.addr).length % 4 = 0 := strEnc_mod4 m.addr
  simp only [encode_message, vec_encode_string_into, vec_write,
    vec_encode_arg_type_loop, vec_encode_arg_data_loop, List.length_cons,
    List.length_nil, Nat.zero_add, List.length_replicate]
  simp only [msgBytes]
  rw [strEnc_comma (tagBytesList m.args) ((strEnc m.addr).length) hA]
  simp [List.append_assoc, List.length_replicate]
  omega

mutual

theorem vec_encode_bundle (tt : OscTime) (content : List OscPacket)
    (st : Bytes) :
    encode_bundle VecOutput tt content st
      = (st ++ packetBytes (.Bundle tt content),
         (packetBytes (.Bundle tt content)).length) := by
  simp only [encode_bundle, vec_encode_string_into, vec_encode_time_tag_into]
  rw [vec_encode_bundle_loop content]
  simp [packetBytes, List.append_assoc, length_timeTagBytes]
  omega

theorem vec_encode_bundle_loop (l : List OscPacket) (st : Bytes)
    (written : Nat) :
    encode_bundle_loop VecOutput l st written
      = (st ++ framesBytes l, written + (framesBytes l).length) := by
  match l with
  | [] => simp [encode_bundle_loop, framesBytes]
  | .Message m :: rest =>
    simp only [encode_bundle_loop]
    rw [vec_encode_message]
    rw [vec_encode_bundle_loop rest]
    simp [VecOutput, framesBytes, packetBytes, List.append_assoc,
      List.drop_append, length_u32be]
    omega
  | .Bundle tt c :: rest =>
    simp only [encode_bundle_loop]
    rw [vec_encode_bundle tt c]
    rw [vec_encode_bundle_loop rest]
    simp [VecOutput, framesBytes, List.append_assoc,
      List.drop_append, length_u32be]
    omega

end

theorem vec_encode_into (p : OscPacket) (st : Bytes) :
    encode_into VecOutput p st = (st ++ packetBytes p, (packetBytes p).length) := by
  match p with
  | .Message m =>
    simp only [encode_into, packetBytes]
    exact vec_encode_message m st
  | .Bundle tt content =>
    simp only [encode_into]
    exact vec_encode_bundle tt content st

/-! ## Byte counts are sink-independent

For any sink whose `write` reports the length of the data it was given
(src/encoder.rs 267-272 requires exactly that), the count returned by each
encoding function is the length of the pure byte layout.  Both provided
sinks satisfy the premise. -/

theorem cnt_encode_string_into {σ π : Type} (O : Output σ π) (s : Bytes)
    (st : σ) :
    (encode_string_into O s st).2 = (strEnc s).length := by
  have h1 := pad_succ_lb s.length
  simp [encode_string_into, strEnc]

theorem cnt_encode_time_tag_into {σ π : Type} (O : Output σ π) (t : OscTime)
    (st : σ) :
    (encode_time_tag_into O t st).2 = 8 := rfl

mutual

theorem cnt_encode_arg_type {σ π : Type} (O : Output σ π)
    (hw : ∀ st d, (O.write st d).2 = d.length) (a : OscType) (st : σ) :
    (encode_arg_type O a st).2 = (tagBytes a).length := by
  match a with
  | .Int _ => simp [encode_arg_type, tagBytes, hw]
  | .Long _ => simp [encode_arg_type, tagBytes, hw]
  | .Float _ => simp [encode_arg_type, tagBytes, hw]
  | .Double _ => simp [encode_arg_type, tagBytes, hw]
  | .Char _ => simp [encode_arg_type, tagBytes, hw]
  | .String _ => simp [encode_arg_type, tagBytes, hw]
  | .Blob _ => simp [encode_arg_type, tagBytes, hw]
  | .Time _ => simp [encode_arg_type, tagBytes, hw]
  | .Midi _ => simp [encode_arg_type, tagBytes, hw]
  | .Color _ => simp [encode_arg_type, tagBytes, hw]
  | .Bool x => cases x <;> simp [encode_arg_type, tagBytes, hw]
  | .Nil => simp [encode_arg_type, tagBytes, hw]
  | .Inf => simp [encode_arg_type, tagBytes, hw]
  | .Array content =>
    simp only [encode_arg_type, tagBytes]
    simp [hw, cnt_encode_arg_type_loop O hw content]
    omega

theorem cnt_encode_arg_type_loop {σ π : Type} (O : Output σ π)
    (hw : ∀ st d, (O.write st d).2 = d.length) (l : List OscType) (st : σ) :
    (encode_arg_type_loop O l st).2 = (tagBytesList l).length := by
  match l with
  | [] => simp [encode_arg_type_loop, tagBytesList]
  | v :: rest =>
    simp only [encode_arg_type_loop, tagBytesList]
    simp [cnt_encode_arg_type O hw v, cnt_encode_arg_type_loop O hw rest]

end

mutual

theorem cnt_encode_arg_data {σ π : Type} (O : Output σ π)
    (hw : ∀ st d, (O.write st d).2 = d.length) (a : OscType) (st : σ) :
    (encode_arg_data O a st).2 = (dataBytes a).length := by
  match a with
  | .Int _ => simp [encode_arg_data, dataBytes, hw]
  | .Long _ => simp [encode_arg_data, dataBytes, hw]
  | .Float _ => simp [encode_arg_data, dataBytes, hw]
  | .Double _ => simp [encode_arg_data, dataBytes, hw]
  | .Char _ => simp [encode_arg_data, dataBytes, hw]
  | .String s => simpa [encode_arg_data, dataBytes] using
      cnt_encode_string_into O s st
  | .Blob b =>
    have hle := le_pad b.length
    simp [encode_arg_data, dataBytes, length_u32be]
    omega
  | .Time t => simpa [encode_arg_data, dataBytes, length_timeTagBytes] using
      cnt_encode_time_tag_into O t st
  | .Midi _ => simp [encode_arg_data, dataBytes, hw]
  | .Color _ => simp [encode_arg_data, dataBytes, hw]
  | .Bool _ => simp [encode_arg_data, dataBytes]
  | .Nil => simp [encode_arg_data, dataBytes]
  | .Inf => simp [encode_arg_data, dataBytes]
  | .Array content =>
    simp only [encode_arg_data, dataBytes]
    exact cnt_encode_arg_data_loop O hw content st

theorem cnt_encode_arg_data_loop {σ π : Type} (O : Output σ π)
    (hw : ∀ st d, (O.write st d).2 = d.length) (l : List OscType) (st : σ) :
    (encode_arg_data_loop O l st).2 = (dataBytesList l).length := by
  match l with
  | [] => simp [encode_arg_data_loop, dataBytesList]
  | v :: rest =>
    simp only [encode_arg_data_loop, dataBytesList]
    simp [cnt_encode_arg_data O hw v, cnt_encode_arg_data_loop O hw rest]

end

theorem cnt_encode_message {σ π : Type} (O : Output σ π)
    (hw : ∀ st d, (O.write st d).2 = d.length) (m : OscMessage) (st : σ) :
    (encode_message O m st).2 = (msgBytes m).length := by
  have hA : (strEnc m.addr).length % 4 = 0 := strEnc_mod4 m.addr
  have hpad : pad ((strEnc m.addr).length + 1 + (tagBytesList m.args).length + 1)
      = (strEnc m.addr).length + pad ((tagBytesList m.args).length + 2) := by
    rw [show (strEnc m.addr).length + 1 + (tagBytesList m.args).length + 1
        = (strEnc m.addr).length + ((tagBytesList m.args).length + 2) by ring]
    exact pad_add_of_dvd _ _ hA
  have hT := le_pad ((tagBytesList m.args).length + 2)
  have hmb : (msgBytes m).length
      = (strEnc m.addr).length + pad ((tagBytesList m.args).length + 2)
        + (dataBytesList m.args).length := by
    have h2 : (strEnc (44 :: tagBytesList m.args)).length
        = pad ((tagBytesList m.args).length + 2) := by
      rw [strEnc_length]
      simp only [List.length_cons]
    simp [msgBytes, h2]
    omega
  simp only [encode_message]
  simp [hw, cnt_encode_string_into O, cnt_encode_arg_type_loop O hw,
    cnt_encode_arg_data_loop O hw, List.length_replicate]
  omega

mutual

theorem cnt_encode_bundle {σ π : Type} (O : Output σ π)
    (hw : ∀ st d, (O.write st d).2 = d.length) (tt : OscTime)
    (content : List OscPacket) (st : σ) :
    (encode_bundle O tt content st).2
      = (packetBytes (.Bundle tt content)).length := by
  simp only [encode_bundle]
  rw [cnt_encode_bundle_loop O hw content]
  simp [cnt_encode_string_into O, cnt_encode_time_tag_into O, packetBytes,
    length_timeTagBytes]
  omega

theorem cnt_encode_bundle_loop {σ π : Type} (O : Output σ π)
    (hw : ∀ st d, (O.write st d).2 = d.length) (l : List OscPacket) (st : σ)
    (written : Nat) :
    (encode_bundle_loop O l st written).2
      = written + (framesBytes l).length := by
  match l with
  | [] => simp [encode_bundle_loop, framesBytes]
  | .Message m :: rest =>
    simp only [encode_bundle_loop]
    rw [cnt_encode_bundle_loop O hw rest]
    simp [cnt_encode_message O hw m, framesBytes, packetBytes, length_u32be]
    omega
  | .Bundle tt c :: rest =>
    simp only [encode_bundle_loop]
    rw [cnt_encode_bundle_loop O hw rest]
    simp [cnt_encode_bundle O hw tt c, framesBytes, length_u32be]
    omega

end

theorem cnt_encode_into {σ π : Type} (O : Output σ π)
    (hw : ∀ st d, (O.write st d).2 = d.length) (p : OscPacket) (st : σ) :
    (encode_into O p st).2 = (packetBytes p).length := by
  match p with
  | .Message m =>
    simp only [encode_into, packetBytes]
    exact cnt_encode_message O hw m st
  | .Bundle tt content =>
    simp only [encode_into]
    exact cnt_encode_bundle O hw tt content st

theorem null_write_len : ∀ (st : Unit) (d : Bytes),
    (NullOutput.write st d).2 = d.length := fun _ _ => rfl

theorem vec_write_len : ∀ (st : Bytes) (d : Bytes),
    (VecOutput.write st d).2 = d.length := fun _ _ => rfl

/-! ## Alignment of the pure layouts -/

mutual

theorem dataBytes_mod4 (a : OscType) : (dataBytes a).length % 4 = 0 := by
  match a with
  | .Int _ => simp [dataBytes, length_u32be]
  | .Long _ => simp [dataBytes, length_u64be]
  | .Float _ => simp [dataBytes, length_u32be]
  | .Double _ => simp [dataBytes, length_u64be]
  | .Char _ => simp [dataBytes, length_u32be]
  | .String s => simpa [dataBytes] using strEnc_mod4 s
  | .Blob b =>
    have hle := le_pad b.length
    have hmod := pad_mod4 b.length
    simp [dataBytes, length_u32be]
    omega
  | .Time _ => simp [dataBytes, length_timeTagBytes]
  | .Midi _ => simp [dataBytes]
  | .Color _ => simp [dataBytes]
  | .Bool _ => simp [dataBytes]
  | .Nil => simp [dataBytes]
  | .Inf => simp [dataBytes]
  | .Array content => simpa [dataBytes] using dataBytesList_mod4 content

theorem dataBytesList_mod4 (l : List OscType) :
    (dataBytesList l).length % 4 = 0 := by
  match l with
  | [] => simp [dataBytesList]
  | v :: rest =>
    have h1 := dataBytes_mod4 v
    have h2 := dataBytesList_mod4 rest
    simp [dataBytesList]
    omega

end

theorem msgBytes_mod4 (m : OscMessage) : (msgBytes m).length % 4 = 0 := by
  have h1 := strEnc_mod4 m.addr
  have h2 := strEnc_mod4 (44 :: tagBytesList m.args)
  have h3 := dataBytesList_mod4 m.args
  simp [msgBytes]
  omega

mutual

theorem packetBytes_mod4 (p : OscPacket) : (packetBytes p).length % 4 = 0 := by
  match p with
  | .Message m => simpa [packetBytes] using msgBytes_mod4 m
  | .Bundle tt content =>
    have h1 := strEnc_mod4 bundleLit
    have h2 := framesBytes_mod4 content
    simp [packetBytes, length_timeTagBytes]
    omega

theorem framesBytes_mod4 (l : List OscPacket) :
    (framesBytes l).length % 4 = 0 := by
  match l with
  | [] => simp [framesBytes]
  | p :: rest =>
    have h1 := packetBytes_mod4 p
    have h2 := framesBytes_mod4 rest
    simp [framesBytes, length_u32be]
    omega

end

/-! ## Remaining helper lemmas -/

theorem fst_pair {α β : Type} (a : α) (b : β) : (a, b).1 = a := rfl

theorem snd_pair {α β : Type} (a : α) (b : β) : (a, b).2 = b := rfl

theorem tagBytesList_eq_join (l : List OscType) :
    tagBytesList l = (l.map tagBytes).flatten := by
  match l with
  | [] => simp [tagBytesList]
  | v :: rest => simp [tagBytesList, tagBytesList_eq_join rest]

theorem dataBytesList_eq_join (l : List OscType) :
    dataBytesList l = (l.map dataBytes).flatten := by
  match l with
  | [] => simp [dataBytesList]
  | v :: rest => simp [dataBytesList, dataBytesList_eq_join rest]

theorem framesBytes_eq_join (l : List OscPacket) :
    framesBytes l
      = (l.map (fun p => u32be (packetBytes p).length ++ packetBytes p)).flatten := by
  match l with
  | [] => simp [framesBytes]
  | p :: rest => simp [framesBytes, framesBytes_eq_join rest, List.append_assoc]

theorem pad64_eq_of_no_overflow (n : Nat) (h : n + 4 ≤ 2 ^ 64) :
    pad64 n = n + (4 - n % 4) % 4 := by
  rw [pad64_eq]
  split
  · next hz => omega
  · next hz => omega

/-! ## The claims -/

/-- C7 counterexample: at `n = 2^64 - 1` (a legal `u64`), the addition in
`pad` overflows; with the release-build wrap the function returns `0`,
which is neither `≥ n` nor the claimed rounding (a debug build panics
instead, contradicting "no failure mode" directly). -/
theorem claim7_counterexample :
    pad64 (2 ^ 64 - 1) = 0 ∧ ¬ (2 ^ 64 - 1 ≤ pad64 (2 ^ 64 - 1)) := by
  have h : pad64 (2 ^ 64 - 1) = 0 := by
    rw [pad64_eq]
    norm_num
  exact ⟨h, by rw [h]; norm_num⟩

/-- C7 (amended): for every `u64` value `n ≤ 2^64 - 4`, `pad(n)` is the
smallest multiple of 4 that is `≥ n` (stated against any multiple-of-4
bound `m ≥ n`), and the listed values hold; on the remaining three inputs
the `u64` addition overflows, so the claim's totality fails there. -/
theorem claim7_pad_smallest (n m : Nat) (hn : n + 4 ≤ 2 ^ 64)
    (hm : m % 4 = 0) (hnm : n ≤ m) :
    pad64 n % 4 = 0 ∧ n ≤ pad64 n ∧ pad64 n ≤ m
      ∧ pad64 0 = 0 ∧ pad64 1 = 4 ∧ pad64 4 = 4 ∧ pad64 5 = 8
      ∧ pad64 6 = 8 ∧ pad64 7 = 8 ∧ pad64 8 = 8 := by
  have he := pad64_eq_of_no_overflow n hn
  refine ⟨by rw [he]; omega, by rw [he]; omega, by rw [he]; omega,
    by decide, by decide, by decide, by decide, by decide, by decide,
    by decide⟩

/-- C7 witness: instance of the amended claim at `n = 5`, `m = 8`. -/
theorem claim7_witness :
    pad64 5 % 4 = 0 ∧ 5 ≤ pad64 5 ∧ pad64 5 ≤ 8
      ∧ pad64 0 = 0 ∧ pad64 1 = 4 ∧ pad64 4 = 4 ∧ pad64 5 = 8
      ∧ pad64 6 = 8 ∧ pad64 7 = 8 ∧ pad64 8 = 8 :=
  claim7_pad_smallest 5 8 (by norm_num) (by norm_num) (by norm_num)

/-- C5: both string encoders produce the text followed by
`k = pad(len+1) - len` NUL bytes with `1 ≤ k ≤ 4`, the result is 4-byte
aligned, and at least one terminating NUL is always present. -/
theorem claim5_string_padding (s st : Bytes) :
    encode_string s = s ++ List.replicate (pad (s.length + 1) - s.length) 0
    ∧ (encode_string_into VecOutput s st).1
        = st ++ s ++ List.replicate (pad (s.length + 1) - s.length) 0
    ∧ (encode_string_into VecOutput s st).2
        = s.length + (pad (s.length + 1) - s.length)
    ∧ 1 ≤ pad (s.length + 1) - s.length
    ∧ pad (s.length + 1) - s.length ≤ 4
    ∧ (encode_string s).length % 4 = 0 := by
  have hlb := pad_succ_lb s.length
  have hub := pad_succ_ub s.length
  have h1 : encode_string s = strEnc s := encode_string_eq_strEnc s
  have h2 := vec_encode_string_into s st
  refine ⟨by rw [h1]; rfl, ?_, ?_, by omega, by omega, ?_⟩
  · rw [h2]
    simp [strEnc, List.append_assoc]
  · rw [h2]
    simp [strEnc]
  · rw [h1]
    exact strEnc_mod4 s

/-- C2: every produced byte run is 4-byte aligned: whole packets, encoded
strings (addresses, text arguments, the `"#bundle"` literal), the padded
type-tag region of a message, every argument's data block, and every
length-prefixed bundle frame. -/
theorem claim2_alignment (p : OscPacket) (a : OscType) (s : Bytes)
    (args : List OscType) :
    (encode_into VecOutput p []).1.length % 4 = 0
    ∧ (encode_string_into VecOutput s []).1.length % 4 = 0
    ∧ (strEnc (44 :: tagBytesList args)).length % 4 = 0
    ∧ (encode_arg_data VecOutput a []).1.length % 4 = 0
    ∧ (4 + (encode_into VecOutput p []).1.length) % 4 = 0 := by
  have hp := packetBytes_mod4 p
  refine ⟨?_, ?_, strEnc_mod4 _, ?_, ?_⟩
  · rw [vec_encode_into]
    simpa using hp
  · rw [vec_encode_string_into]
    simpa using strEnc_mod4 s
  · rw [vec_encode_arg_data]
    simpa using dataBytes_mod4 a
  · rw [vec_encode_into]
    simp only [List.nil_append]
    omega

/-- C4: a message encodes as address, then the padded type-tag string
(`','` = 44 followed by one tag emission per argument in order, recursing
into arrays inside `tagBytes`), then the arguments' data blocks
concatenated in the same order — no length prefix of its own. -/
theorem claim4_message_layout (m : OscMessage) :
    (encode_into VecOutput (.Message m) []).1
      = strEnc m.addr ++ strEnc (44 :: (m.args.map tagBytes).flatten)
        ++ (m.args.map dataBytes).flatten := by
  rw [vec_encode_into]
  simp [packetBytes, msgBytes, tagBytesList_eq_join, dataBytesList_eq_join]

/-- C9: `Bool`/`Nil`/`Infinity` contribute exactly one tag character
(84 'T' / 70 'F', 78 'N', 73 'I') and no data bytes; an array contributes
91 '[', its elements' tags in order, 93 ']', and its data is the plain
concatenation of its elements' data with no length prefix. -/
theorem claim9_zero_payload_and_array (b : Bool) (l : List OscType)
    (st : Bytes) :
    encode_arg_type VecOutput (.Bool b) st = (st ++ [if b then 84 else 70], 1)
    ∧ encode_arg_data VecOutput (.Bool b) st = (st, 0)
    ∧ encode_arg_type VecOutput .Nil st = (st ++ [78], 1)
    ∧ encode_arg_data VecOutput .Nil st = (st, 0)
    ∧ encode_arg_type VecOutput .Inf st = (st ++ [73], 1)
    ∧ encode_arg_data VecOutput .Inf st = (st, 0)
    ∧ encode_arg_type VecOutput (.Array l) st
        = (st ++ [91] ++ (l.map tagBytes).flatten ++ [93],
           ((l.map tagBytes).flatten).length + 2)
    ∧ encode_arg_data VecOutput (.Array l) st
        = (st ++ (l.map dataBytes).flatten, ((l.map dataBytes).flatten).length) := by
  have ht := vec_encode_arg_type (.Array l) st
  have hd := vec_encode_arg_data (.Array l) st
  refine ⟨?_, ?_, ?_, ?_, ?_, ?_, ?_, ?_⟩
  · cases b <;> simp [vec_encode_arg_type, tagBytes]
  · simp [vec_encode_arg_data, dataBytes]
  · simp [vec_encode_arg_type, tagBytes]
  · simp [vec_encode_arg_data, dataBytes]
  · simp [vec_encode_arg_type, tagBytes]
  · simp [vec_encode_arg_data, dataBytes]
  · rw [ht]
    simp [tagBytes, tagBytesList_eq_join, List.append_assoc]
  · rw [hd]
    simp [dataBytes, dataBytesList_eq_join]

/-- C6: the convenience entry point never produces an error: for every
packet it returns `Ok` carrying exactly the bytes the growable-buffer sink
accumulates, which are the packet's byte layout. -/
theorem claim6_encode_infallible (p : OscPacket) :
    encode p = Except.ok ((encode_into VecOutput p []).1)
    ∧ encode p = Except.ok (packetBytes p) := by
  have h := vec_encode_into p []
  constructor
  · rfl
  · simp [encode, h]

/-- C3: the discard sink and a fresh growable buffer report the same byte
count, and that count is the length of the byte vector the buffer ends up
holding. -/
theorem claim3_null_vec_agree (p : OscPacket) :
    (encode_into NullOutput p ()).2 = (encode_into VecOutput p []).2
    ∧ (encode_into VecOutput p []).2 = (encode_into VecOutput p []).1.length := by
  have hn := cnt_encode_into NullOutput null_write_len p ()
  have hv := vec_encode_into p []
  constructor
  · rw [hn, hv]
  · rw [hv]
    simp

/-- C10: encoding into a `Vec` sink with arbitrary pre-existing contents
leaves the prefix unchanged and appends exactly the bytes a fresh buffer
(and hence `encode`) would produce, reporting their count; in particular a
cleared, reused buffer gives byte-identical output to a fresh one. -/
theorem claim10_buffer_reuse (p : OscPacket) (st : Bytes) :
    (encode_into VecOutput p st).1.take st.length = st
    ∧ (encode_into VecOutput p st).1.drop st.length
        = (encode_into VecOutput p []).1
    ∧ encode p = Except.ok ((encode_into VecOutput p st).1.drop st.length)
    ∧ (encode_into VecOutput p st).2 = (encode_into VecOutput p []).1.length := by
  have h := vec_encode_into p st
  have h0 := vec_encode_into p []
  refine ⟨?_, ?_, ?_, ?_⟩
  · rw [h]
    simp
  · rw [h, h0]
    simp
  · rw [h]
    simp [encode, h0]
  · rw [h, h0]
    simp

/-- C8 counterexample: for a blob of `2^32` bytes (representable on a
64-bit machine), the emitted 4-byte count field decodes to 0, not to the
unpadded length — `x.len() as u32` truncates. -/
theorem claim8_counterexample :
    beVal ((encode_arg_data VecOutput
        (.Blob (List.replicate (2 ^ 32) 0)) []).1.take 4)
      ≠ (List.replicate (2 ^ 32) (0 : Nat)).length := by
  have hp : pad (2 ^ 32) = 2 ^ 32 := by
    rw [pad_eq]
    norm_num
  have hlen : (List.replicate (2 ^ 32) (0 : Nat)).length = 2 ^ 32 :=
    List.length_replicate _ _
  have h1 : (encode_arg_data VecOutput (.Blob (List.replicate (2 ^ 32) 0)) []).1
      = dataBytes (.Blob (List.replicate (2 ^ 32) 0)) :=
    (congrArg Prod.fst
        (vec_encode_arg_data (.Blob (List.replicate (2 ^ 32) 0)) [])).trans
      (fst_pair _ _ |>.trans (List.nil_append _))
  have h2 : dataBytes (.Blob (List.replicate (2 ^ 32) 0))
      = u32be (List.replicate (2 ^ 32) (0 : Nat)).length
        ++ List.replicate (2 ^ 32) 0
        ++ List.replicate
          (pad (List.replicate (2 ^ 32) (0 : Nat)).length
            - (List.replicate (2 ^ 32) (0 : Nat)).length) 0 := by
    simp only [dataBytes]
  have h2b : dataBytes (.Blob (List.replicate (2 ^ 32) 0))
      = u32be (2 ^ 32) ++ List.replicate (2 ^ 32) 0 := by
    rw [h2, hlen, hp, Nat.sub_self, List.replicate_zero, List.append_nil]
  have h3 : ((u32be (2 ^ 32)) ++ List.replicate (2 ^ 32) (0 : Nat)).take 4
      = u32be (2 ^ 32) := by
    rw [show (4 : Nat) = (u32be (2 ^ 32)).length from rfl]
    exact List.take_left _ _
  rw [h1, h2b, h3, beVal_u32be, hlen]
  norm_num

/-- C8 (amended): for every blob whose length is below `2^32`, the data
block is the 4-byte big-endian unpadded count (decoding back to exactly
that length), the raw bytes, and 0-3 zero bytes up to alignment, totalling
`4 + pad(n)` bytes. -/
theorem claim8_blob_layout (b : Bytes) (st : Bytes) (h : b.length < 2 ^ 32) :
    encode_arg_data VecOutput (.Blob b) st
      = (st ++ u32be b.length ++ b
          ++ List.replicate (pad b.length - b.length) 0, 4 + pad b.length)
    ∧ beVal (u32be b.length) = b.length
    ∧ pad b.length - b.length ≤ 3
    ∧ (4 + pad b.length) % 4 = 0
    ∧ (u32be b.length ++ b
        ++ List.replicate (pad b.length - b.length) 0).length
      = 4 + pad b.length := by
  have hle := le_pad b.length
  have hm := pad_mod4 b.length
  have hv := vec_encode_arg_data (.Blob b) st
  refine ⟨?_, ?_, pad_sub_le _, by omega, ?_⟩
  · rw [hv]
    simp [dataBytes, List.append_assoc, length_u32be]
    omega
  · rw [beVal_u32be]
    exact Nat.mod_eq_of_lt h
  · simp [length_u32be]
    omega

/-- C8 witness: the amended claim at the 3-byte blob `[1, 2, 3]`. -/
theorem claim8_witness :
    encode_arg_data VecOutput (.Blob [1, 2, 3]) [] = ([0, 0, 0, 3, 1, 2, 3, 0], 8)
    ∧ beVal (u32be 3) = 3 := by
  have h := claim8_blob_layout [1, 2, 3] [] (by norm_num)
  exact ⟨h.1.trans (by decide), h.2.1⟩

theorem vec_into_fst (p : OscPacket) (st : Bytes) :
    (encode_into VecOutput p st).1 = st ++ packetBytes p :=
  (congrArg Prod.fst (vec_encode_into p st)).trans (fst_pair _ _)

theorem vec_into_fst_nil (p : OscPacket) :
    (encode_into VecOutput p []).1 = packetBytes p :=
  (vec_into_fst p []).trans (List.nil_append _)

/-- C1 (amended): a bundle encodes as the `"#bundle"` header, the time tag,
and then, for each content element in order, a 4-byte big-endian length
field immediately followed by that element's own encoding; the length
field's value equals the byte count of that encoding provided each
element's encoding is shorter than `2^32` bytes (the `len as u32` cast in
the source truncates the count modulo `2^32`, so for larger elements the
field holds the count's low 32 bits instead). -/
theorem claim1_bundle_framing (tt : OscTime) (content : List OscPacket)
    (h : ∀ p ∈ content, (encode_into VecOutput p []).1.length < 2 ^ 32) :
    (encode_into VecOutput (.Bundle tt content) []).1
      = strEnc bundleLit ++ timeTagBytes tt
        ++ (content.map (fun p =>
            u32be (encode_into VecOutput p []).1.length
              ++ (encode_into VecOutput p []).1)).flatten
    ∧ ∀ p ∈ content,
        beVal (u32be (encode_into VecOutput p []).1.length)
          = (encode_into VecOutput p []).1.length := by
  constructor
  · rw [vec_into_fst_nil]
    simp only [packetBytes]
    rw [framesBytes_eq_join]
    simp [vec_into_fst_nil]
  · intro p hp
    rw [vec_into_fst_nil, beVal_u32be]
    have hlt := h p hp
    rw [vec_into_fst_nil] at hlt
    exact Nat.mod_eq_of_lt hlt

/-- C1 witness: the amended claim at a bundle with time tag `{0,0}` whose
single element is the message with address `"/a"` and no arguments
(spec §8, Scenario C shape): the length field holds 8, the element's exact
encoded size. -/
theorem claim1_witness :
    (encode_into VecOutput
        (.Bundle ⟨0, 0⟩ [.Message ⟨[47, 97], []⟩]) []).1
      = [35, 98, 117, 110, 100, 108, 101, 0,
         0, 0, 0, 0, 0, 0, 0, 0,
         0, 0, 0, 8,
         47, 97, 0, 0, 44, 0, 0, 0]
    ∧ beVal (u32be (encode_into VecOutput
        (.Message ⟨[47, 97], []⟩) []).1.length)
      = (encode_into VecOutput (.Message ⟨[47, 97], []⟩) []).1.length := by
  have hm : (encode_into VecOutput (.Message ⟨[47, 97], []⟩) []).1
      = [47, 97, 0, 0, 44, 0, 0, 0] := by
    rw [vec_into_fst_nil]
    simp only [packetBytes, msgBytes, tagBytesList, dataBytesList]
    decide
  have hlt : ∀ p ∈ [OscPacket.Message ⟨[47, 97], []⟩],
      (encode_into VecOutput p []).1.length < 2 ^ 32 := by
    intro p hp
    simp only [List.mem_singleton] at hp
    subst hp
    rw [hm]
    decide
  have h := claim1_bundle_framing ⟨0, 0⟩ [.Message ⟨[47, 97], []⟩] hlt
  constructor
  · rw [h.1]
    simp only [List.map_cons, List.map_nil]
    rw [hm]
    decide
  · rw [hm]
    decide

/-- Any message `"/a"` with a single blob of `2^32 - 12` bytes encodes to
exactly `2^32` bytes, and the bundle length field written for it decodes
to 0; stated over an arbitrary payload of that length. -/
theorem c1cex_general (bb : Bytes) (hbb : bb.length = 2 ^ 32 - 12) :
    (encode_into VecOutput
        (.Bundle ⟨0, 0⟩ [.Message ⟨[47, 97], [.Blob bb]⟩]) []).1
      = strEnc bundleLit ++ timeTagBytes ⟨0, 0⟩
        ++ (u32be (encode_into VecOutput
              (.Message ⟨[47, 97], [.Blob bb]⟩) []).1.length
            ++ (encode_into VecOutput (.Message ⟨[47, 97], [.Blob bb]⟩) []).1)
    ∧ beVal (u32be (encode_into VecOutput
          (.Message ⟨[47, 97], [.Blob bb]⟩) []).1.length)
        ≠ (encode_into VecOutput (.Message ⟨[47, 97], [.Blob bb]⟩) []).1.length := by
  have hL : (encode_into VecOutput
      (.Message ⟨[47, 97], [.Blob bb]⟩) []).1.length = 2 ^ 32 := by
    rw [vec_into_fst_nil]
    simp only [packetBytes, msgBytes, tagBytesList, tagBytes, dataBytesList,
      dataBytes, List.append_nil]
    simp only [List.length_append, strEnc_length, length_u32be,
      List.length_replicate, List.length_cons, List.length_nil, hbb]
    have hp3 : pad (0 + 1 + 1 + 1) = 4 := by decide
    have hp12 : pad (2 ^ 32 - 12) = 2 ^ 32 - 12 := by
      rw [pad_eq]
      norm_num
    omega
  constructor
  · have em : (encode_into VecOutput (.Message ⟨[47, 97], [.Blob bb]⟩) []).1
        = msgBytes ⟨[47, 97], [.Blob bb]⟩ :=
      (vec_into_fst_nil _).trans (by simp only [packetBytes])
    rw [vec_into_fst_nil, em]
    simp only [packetBytes, framesBytes, List.append_nil]
  · rw [hL, beVal_u32be]
    norm_num

/-- C1 counterexample: a bundle whose single element is a message carrying
a blob of `2^32 - 12` bytes.  The element's encoding is exactly `2^32`
bytes, the emitted length field is `(2^32 as u32).to_be_bytes() =
[0,0,0,0]`, and its big-endian value 0 is not the element's byte count —
the claim's unqualified "equals exactly" fails at this input. -/
theorem claim1_counterexample :
    (encode_into VecOutput (.Bundle ⟨0, 0⟩
        [.Message ⟨[47, 97], [.Blob (List.replicate (2 ^ 32 - 12) 0)]⟩]) []).1
      = strEnc bundleLit ++ timeTagBytes ⟨0, 0⟩
        ++ (u32be (encode_into VecOutput
              (.Message ⟨[47, 97],
                [.Blob (List.replicate (2 ^ 32 - 12) 0)]⟩) []).1.length
            ++ (encode_into VecOutput
              (.Message ⟨[47, 97],
                [.Blob (List.replicate (2 ^ 32 - 12) 0)]⟩) []).1)
    ∧ beVal (u32be (encode_into VecOutput
          (.Message ⟨[47, 97],
            [.Blob (List.replicate (2 ^ 32 - 12) 0)]⟩) []).1.length)
        ≠ (encode_into VecOutput
          (.Message ⟨[47, 97],
            [.Blob (List.replicate (2 ^ 32 - 12) 0)]⟩) []).1.length :=
  c1cex_general (List.replicate (2 ^ 32 - 12) 0) (List.length_replicate _ _)
